import Mathlib

/-!
Shallow embedding of the `huff` Huffman codec (src/lib.rs, src/util.rs).

Modelling notes:
* A symbol (Rust `u8`) is a `Nat`; inputs are `List Nat` with values `< 256`.
* `SymbolCounts` (`[u32; 256]`) is a function `Nat → Nat`; the code only ever
  reads indices `0..255`.  Counts are mathematical naturals: the Rust build
  aborts on `u32` overflow (debug) and no claim concerns wrapped counts.
* `Keyed { key, value }` with comparisons forwarded to `key` is a pair
  `Nat × HuffNode` compared on `.1`.
* Rust's `BinaryHeap<Reverse<Keyed<u32, HuffNode>>>` is a min-priority queue.
  It is modelled as a `List` in insertion order whose `popMin` removes the
  first element of minimal key; freshly built parents are appended at the
  end.  `BinaryHeap`'s order among equal keys is unspecified, and no claim
  below depends on the tie-break.
* A `SymbolCode` (packed bits + length) is its bit sequence `List Bool`;
  `from_bits` stores the exact bits together with the exact length, and
  `encode` reads them back bit by bit, so the packed representation is the
  bit list.  `from_bits` asserts `1 ≤ len ≤ 255`; a failed assertion
  (a panic) is `Option.none`.
* `bv::BitVec<u8>` blocks and `BitIter` both use least-significant-bit-first
  order inside a byte; `byteBits`/`bitsToByte` implement that order.
* Writing to the output sink never fails in the model (the program unwraps
  IO errors; no claim concerns them).
-/

namespace Huff

/-- `HuffNode`: `Parent(zero, one)` or `Leaf(symbol)` (src/lib.rs). -/
inductive HuffNode where
  | Parent : HuffNode → HuffNode → HuffNode
  | Leaf : Nat → HuffNode
deriving DecidableEq, Repr

/-- `SymbolCounts`: per-byte occurrence counts (`counts: [u32; 256]`). -/
def SymbolCounts := Nat → Nat

/-- `count_symbols`: tally occurrences of each byte of the input. -/
def count_symbols (input : List Nat) : SymbolCounts :=
  fun s => input.count s

/-- A priority-queue element: Rust `Keyed { key, value }` compared on `key`. -/
abbrev QElem := Nat × HuffNode

/-- Remove the first element of minimal key from the queue (the
min-pop of `BinaryHeap<Reverse<Keyed<..>>>`, with a deterministic
earliest-position tie-break). -/
def popMin : List QElem → Option (QElem × List QElem)
  | [] => none
  | x :: xs =>
    match popMin xs with
    | none => some (x, [])
    | some (m, rest) =>
      if x.1 ≤ m.1 then some (x, xs) else some (m, x :: rest)

/-- The seed queue of `build_tree`: one leaf per symbol `0..255` with
nonzero count, in symbol order. -/
def initQueue (counts : SymbolCounts) : List QElem :=
  (List.range 256).filterMap
    (fun s => if 0 < counts s then some (counts s, HuffNode.Leaf s) else none)

theorem popMin_none {q : List QElem} : popMin q = none ↔ q = [] := by
  cases q with
  | nil => simp [popMin]
  | cons x xs =>
    simp only [popMin]
    constructor
    · intro h
      cases hxs : popMin xs with
      | none => rw [hxs] at h; simp at h
      | some p =>
        rw [hxs] at h
        by_cases hle : x.1 ≤ p.1.1 <;> simp [hle] at h
    · intro h; exact absurd h (by simp)

theorem popMin_length {q : List QElem} {x : QElem} {rest : List QElem}
    (h : popMin q = some (x, rest)) : rest.length + 1 = q.length := by
  induction q generalizing x rest with
  | nil => simp [popMin] at h
  | cons a as ih =>
    simp only [popMin] at h
    cases has : popMin as with
    | none =>
      rw [has] at h
      have : as = [] := popMin_none.mp has
      subst this
      simp only [Option.some.injEq, Prod.mk.injEq] at h
      simp [← h.2]
    | some p =>
      obtain ⟨m, mrest⟩ := p
      rw [has] at h
      by_cases hle : a.1 ≤ m.1
      · simp only [hle, if_true, Option.some.injEq, Prod.mk.injEq] at h
        simp [← h.2]
      · simp only [hle, if_false, Option.some.injEq, Prod.mk.injEq] at h
        have hih := ih has
        rw [← h.2]
        simp only [List.length_cons]
        omega

/-- The loop of `build_tree`, fuel-indexed so that it is structural (each
merge shrinks the queue by one, so `fuel = q.length` always suffices):
repeatedly pop the two minimum-weight nodes, merge them (first popped is the
`zero` child, second the `one` child, weights add), push the parent at the
end; when a single node remains, return it.  `none` models the unreachable
pop of an empty queue (or exhausted fuel). -/
def buildLoopF : Nat → List QElem → Option HuffNode
  | 0, _ => none
  | fuel + 1, q =>
    match popMin q with
    | none => none
    | some (first, q1) =>
      match popMin q1 with
      | none => some first.2
      | some (second, q2) =>
        buildLoopF fuel
          (q2 ++ [(first.1 + second.1, HuffNode.Parent first.2 second.2)])

/-- The `while node_queue.len() > 1` loop followed by the final pop. -/
def buildLoop (q : List QElem) : Option HuffNode :=
  buildLoopF q.length q

/-- `build_tree`: seed the queue from the counts, assert it has more than
one element (`none` = the fatal `assert!(node_queue.len() > 1)`), then merge
until one node remains. -/
def build_tree (counts : SymbolCounts) : Option HuffNode :=
  let q := initQueue counts
  if 1 < q.length then buildLoop q else none

/-- Number of distinct byte values with nonzero count. -/
def supportCard (counts : SymbolCounts) : Nat :=
  ((List.range 256).filter (fun s => decide (0 < counts s))).length

/-- `codes_from_tree_impl`: depth-first traversal; descending into the zero
child appends bit `false`, into the one child bit `true`; each leaf yields
the write `codes[symbol] = from_bits(cur_bits)`.  The result is the list of
writes in traversal order. -/
def codes_from_tree_impl (t : HuffNode) (cur : List Bool) : List (Nat × List Bool) :=
  match t with
  | .Parent z o =>
    codes_from_tree_impl z (cur ++ [false]) ++ codes_from_tree_impl o (cur ++ [true])
  | .Leaf s => [(s, cur)]

/-- The final contents of the `codes` array: the last write for `s`, or the
default empty code (length 0) if `s` was never written. -/
def tableOf (entries : List (Nat × List Bool)) (s : Nat) : List Bool :=
  (((entries.filter (fun e => e.1 == s)).getLast?).map Prod.snd).getD []

/-- `codes_from_tree`: panics (`none`) if the root is a leaf; each leaf write
goes through `SymbolCode::from_bits`, which asserts `1 ≤ bit_len ≤ 255`
(`none` when any assertion fails); otherwise the filled code table. -/
def codes_from_tree (t : HuffNode) : Option (Nat → List Bool) :=
  match t with
  | .Leaf _ => none
  | .Parent _ _ =>
    let entries := codes_from_tree_impl t []
    if entries.all (fun e => decide (1 ≤ e.2.length ∧ e.2.length ≤ 255)) then
      some (tableOf entries)
    else none

/-- Value of a block of up to 8 bits, least-significant-bit first
(`bv::BitVec<u8>::get_block`). -/
def bitsToByte (bits : List Bool) : Nat :=
  bits.foldr (fun b n => 2 * n + (if b then 1 else 0)) 0

/-- Emit every full byte of the accumulator (blocks `0 .. bit_len/8`),
returning the emitted bytes and the `bit_len mod 8` remainder bits that are
pushed back into the cleared accumulator. -/
def emitFull : List Bool → List Nat × List Bool
  | b0 :: b1 :: b2 :: b3 :: b4 :: b5 :: b6 :: b7 :: rest =>
    let p := emitFull rest
    (bitsToByte [b0, b1, b2, b3, b4, b5, b6, b7] :: p.1, p.2)
  | acc => ([], acc)

/-- One iteration of `encode`'s `for byte in input` loop: append the byte's
code bits to the accumulator, write out the full bytes, keep the remainder. -/
def encodeStep (codes : Nat → List Bool) (st : List Nat × List Bool) (byte : Nat) :
    List Nat × List Bool :=
  let acc := st.2 ++ codes byte
  let p := emitFull acc
  (st.1 ++ p.1, p.2)

/-- `encode`'s loop over the whole input: final (output bytes, pending bits). -/
def encodeFold (input : List Nat) (codes : Nat → List Bool) : List Nat × List Bool :=
  input.foldl (encodeStep codes) ([], [])

/-- `encode`: the bytes written to the output sink (the pending bits of the
accumulator are dropped at end of input). -/
def encode (input : List Nat) (codes : Nat → List Bool) : List Nat :=
  (encodeFold input codes).1

/-- The 8 bits of one byte in `BitIter` order (least significant first). -/
def byteBits (b : Nat) : List Bool :=
  [b.testBit 0, b.testBit 1, b.testBit 2, b.testBit 3,
   b.testBit 4, b.testBit 5, b.testBit 6, b.testBit 7]

/-- `BitIter`: the bit stream of a byte stream. -/
def bytesBits (bs : List Nat) : List Bool :=
  (bs.map byteBits).flatten

/-- `decode_symbol`: walk from `tree` consuming one bit per `Parent`
(`true` → one child, `false` → zero child); a `Leaf` returns its symbol and
consumes nothing; `none` when the bits run out mid-walk. -/
def decode_symbol (t : HuffNode) (bits : List Bool) : Option (Nat × List Bool) :=
  match t, bits with
  | .Leaf s, bits => some (s, bits)
  | .Parent _ _, [] => none
  | .Parent z o, b :: rest => decode_symbol (if b then o else z) rest

/-- `decode`'s `while let Some(symbol) = decode_symbol(..)` loop, fuel-indexed:
`some out` = the loop exited normally having written `out`; `none` = the fuel
ran out with the loop still running. -/
def decodeSteps : Nat → HuffNode → List Bool → List Nat → Option (List Nat)
  | 0, _, _, _ => none
  | fuel + 1, t, bits, out =>
    match decode_symbol t bits with
    | none => some out
    | some (s, rest) => decodeSteps fuel t rest (out ++ [s])

/-- `decode` with enough fuel to cover any terminating run (a `Parent` root
consumes at least one bit per emitted symbol). -/
def decode (t : HuffNode) (bits : List Bool) : Option (List Nat) :=
  decodeSteps (bits.length + 1) t bits []

/-- The pipeline of `main.rs`: counts → tree → code table → encode → decode. -/
def roundTrip (input : List Nat) : Option (List Nat) :=
  match build_tree (count_symbols input) with
  | none => none
  | some t =>
    match codes_from_tree t with
    | none => none
    | some table => decode t (bytesBits (encode input table))

/-- Leaf symbols of a tree, left to right. -/
def leaves : HuffNode → List Nat
  | .Leaf s => [s]
  | .Parent z o => leaves z ++ leaves o

/-- Node count of a tree. -/
def size : HuffNode → Nat
  | .Leaf _ => 1
  | .Parent z o => size z + size o + 1

/-- `occursAt T p t`: the subtree of `T` reached from the root along path `p`
(`false` = zero child, `true` = one child) is exactly `t`. -/
def occursAt (T : HuffNode) (p : List Bool) (t : HuffNode) : Prop :=
  match p, T with
  | [], _ => T = t
  | b :: p, .Parent z o => occursAt (if b then o else z) p t
  | _ :: _, .Leaf _ => False

/-! ### Priority-queue lemmas -/

theorem popMin_split {q : List QElem} {x : QElem} {rest : List QElem}
    (h : popMin q = some (x, rest)) :
    ∃ l r, q = l ++ x :: r ∧ rest = l ++ r ∧
      (∀ e ∈ l, x.1 < e.1) ∧ (∀ e ∈ r, x.1 ≤ e.1) := by
  induction q generalizing x rest with
  | nil => simp [popMin] at h
  | cons a as ih =>
    simp only [popMin] at h
    cases has : popMin as with
    | none =>
      rw [has] at h
      have hnil : as = [] := popMin_none.mp has
      subst hnil
      simp only [Option.some.injEq, Prod.mk.injEq] at h
      exact ⟨[], [], by simp [h.1], by simp [← h.2], by simp, by simp⟩
    | some p =>
      obtain ⟨m, mrest⟩ := p
      rw [has] at h
      obtain ⟨l', r', hl1, hl2, hl3, hl4⟩ := ih has
      by_cases hle : a.1 ≤ m.1
      · simp only [hle, if_true, Option.some.injEq, Prod.mk.injEq] at h
        obtain ⟨hx, hrest⟩ := h
        subst hx
        refine ⟨[], as, by simp, by simp [← hrest], by simp, ?_⟩
        intro e he
        rw [hl1] at he
        rcases List.mem_append.mp he with hmem | hmem
        · exact le_trans hle (le_of_lt (hl3 e hmem))
        · rcases List.mem_cons.mp hmem with hmem | hmem
          · rw [hmem]; exact hle
          · exact le_trans hle (hl4 e hmem)
      · simp only [hle, if_false, Option.some.injEq, Prod.mk.injEq] at h
        obtain ⟨hx, hrest⟩ := h
        subst hx
        refine ⟨a :: l', r', by simp [hl1], by simp [← hrest, hl2], ?_, hl4⟩
        intro e he
        rcases List.mem_cons.mp he with hmem | hmem
        · rw [hmem]; omega
        · exact hl3 e hmem

theorem popMin_le {q : List QElem} {x : QElem} {rest : List QElem}
    (h : popMin q = some (x, rest)) : ∀ e ∈ rest, x.1 ≤ e.1 := by
  obtain ⟨l, r, _, h2, h3, h4⟩ := popMin_split h
  intro e he
  rw [h2] at he
  rcases List.mem_append.mp he with hmem | hmem
  · exact le_of_lt (h3 e hmem)
  · exact h4 e hmem

theorem popMin_perm {q : List QElem} {x : QElem} {rest : List QElem}
    (h : popMin q = some (x, rest)) : q.Perm (x :: rest) := by
  obtain ⟨l, r, h1, h2, _, _⟩ := popMin_split h
  rw [h1, h2]
  exact List.perm_middle

theorem popMin_mem {q : List QElem} {x : QElem} {rest : List QElem}
    (h : popMin q = some (x, rest)) : x ∈ q :=
  (popMin_perm h).mem_iff.mpr (List.mem_cons_self x rest)

/-! ### Tree-builder loop lemmas -/

theorem buildLoop_last {q : List QElem} {f : QElem} {q1 : List QElem}
    (h1 : popMin q = some (f, q1)) (h2 : popMin q1 = none) :
    buildLoop q = some f.2 := by
  have hl := popMin_length h1
  rw [buildLoop, ← hl]
  simp [buildLoopF, h1, h2]

theorem buildLoop_step {q : List QElem} {f s : QElem} {q1 q2 : List QElem}
    (h1 : popMin q = some (f, q1)) (h2 : popMin q1 = some (s, q2)) :
    buildLoop q = buildLoop (q2 ++ [(f.1 + s.1, HuffNode.Parent f.2 s.2)]) := by
  have hl1 := popMin_length h1
  have hl2 := popMin_length h2
  rw [buildLoop, buildLoop, ← hl1]
  have hlen : (q2 ++ [(f.1 + s.1, HuffNode.Parent f.2 s.2)]).length = q1.length := by
    simp
    omega
  rw [hlen]
  simp [buildLoopF, h1, h2]

theorem buildLoopF_isSome :
    ∀ (fuel : Nat) (q : List QElem), q ≠ [] → q.length ≤ fuel →
      ∃ t, buildLoopF fuel q = some t := by
  intro fuel
  induction fuel with
  | zero =>
    intro q h hle
    cases q with
    | nil => exact absurd rfl h
    | cons a as => simp at hle
  | succ n ih =>
    intro q h hle
    cases hq : popMin q with
    | none => exact absurd (popMin_none.mp hq) h
    | some p =>
      obtain ⟨f, q1⟩ := p
      cases hq1 : popMin q1 with
      | none => exact ⟨f.2, by simp [buildLoopF, hq, hq1]⟩
      | some p2 =>
        obtain ⟨s, q2⟩ := p2
        have hl1 := popMin_length hq
        have hl2 := popMin_length hq1
        obtain ⟨t, ht⟩ :=
          ih (q2 ++ [(f.1 + s.1, HuffNode.Parent f.2 s.2)]) (by simp) (by simp; omega)
        exact ⟨t, by simp [buildLoopF, hq, hq1, ht]⟩

theorem buildLoop_isSome {q : List QElem} (h : q ≠ []) :
    ∃ t, buildLoop q = some t :=
  buildLoopF_isSome q.length q h le_rfl

theorem length_filterMap_ite {α β : Type} (p : α → Prop) [DecidablePred p]
    (g : α → β) (l : List α) :
    (l.filterMap (fun s => if p s then some (g s) else none)).length
      = (l.filter (fun s => decide (p s))).length := by
  induction l with
  | nil => rfl
  | cons a as ih => by_cases h : p a <;> simp [h, ih]

theorem initQueue_length (counts : SymbolCounts) :
    (initQueue counts).length = supportCard counts :=
  length_filterMap_ite (fun s => 0 < counts s) _ _

theorem build_tree_none_of_lt {counts : SymbolCounts}
    (h : supportCard counts < 2) : build_tree counts = none := by
  rw [build_tree]
  have : ¬ 1 < (initQueue counts).length := by
    rw [initQueue_length]; omega
  simp [this]

theorem build_tree_isSome {counts : SymbolCounts}
    (h : 2 ≤ supportCard counts) : ∃ t, build_tree counts = some t := by
  rw [build_tree]
  have hlen : 1 < (initQueue counts).length := by
    rw [initQueue_length]; omega
  have hne : initQueue counts ≠ [] := by
    intro hc; rw [hc] at hlen; simp at hlen
  obtain ⟨t, ht⟩ := buildLoop_isSome hne
  exact ⟨t, by simp [hlen, ht]⟩

/-- C3: `build_tree` aborts (the `assert!(node_queue.len() > 1)` fails)
exactly when fewer than two distinct byte values have nonzero count, and
returns a tree whenever at least two do. -/
theorem build_tree_config_boundary (counts : SymbolCounts) :
    (supportCard counts < 2 → build_tree counts = none) ∧
    (2 ≤ supportCard counts → ∃ t, build_tree counts = some t) :=
  ⟨build_tree_none_of_lt, build_tree_isSome⟩

/-- C3 witness: the empty input and a one-distinct-value input abort; a
two-distinct-value input produces a tree. -/
theorem build_tree_config_boundary_witness :
    (supportCard (count_symbols []) < 2 ∧
      build_tree (count_symbols []) = none) ∧
    (supportCard (count_symbols [5, 5, 5]) < 2 ∧
      build_tree (count_symbols [5, 5, 5]) = none) ∧
    (2 ≤ supportCard (count_symbols [0, 0, 0, 1]) ∧
      ∃ t, build_tree (count_symbols [0, 0, 0, 1]) = some t) :=
  ⟨⟨by decide, (build_tree_config_boundary (count_symbols [])).1 (by decide)⟩,
   ⟨by decide, (build_tree_config_boundary (count_symbols [5, 5, 5])).1 (by decide)⟩,
   ⟨by decide, (build_tree_config_boundary (count_symbols [0, 0, 0, 1])).2 (by decide)⟩⟩

/-- C4: at each step of the tree-builder loop, the first node removed has
minimal weight in the queue, the second has minimal weight among the rest
(so the two removed have the two smallest current weights), and the loop
continues with a new parent whose weight is the sum of the two and whose
zero/one children are the first/second removed nodes respectively. -/
theorem merge_step_invariant {q : List QElem} {f s : QElem} {q1 q2 : List QElem}
    (h1 : popMin q = some (f, q1)) (h2 : popMin q1 = some (s, q2)) :
    f.1 ≤ s.1 ∧ (∀ e ∈ q1, f.1 ≤ e.1) ∧ (∀ e ∈ q2, s.1 ≤ e.1) ∧
    buildLoop q = buildLoop (q2 ++ [(f.1 + s.1, HuffNode.Parent f.2 s.2)]) :=
  ⟨popMin_le h1 s (popMin_mem h2), popMin_le h1, popMin_le h2,
   buildLoop_step h1 h2⟩

/-! ### Code-table traversal lemmas -/

theorem occursAt_nil {T t : HuffNode} : occursAt T [] t ↔ T = t := Iff.rfl

theorem occursAt_cons {z o t : HuffNode} {b : Bool} {p : List Bool} :
    occursAt (HuffNode.Parent z o) (b :: p) t ↔ occursAt (if b then o else z) p t :=
  Iff.rfl

theorem not_occursAt_leaf_cons {s' : Nat} {t : HuffNode} {b : Bool} {p : List Bool} :
    ¬ occursAt (HuffNode.Leaf s') (b :: p) t := fun h => h

theorem codes_from_tree_impl_eq_map (t : HuffNode) (cur : List Bool) :
    codes_from_tree_impl t cur
      = (codes_from_tree_impl t []).map (fun e => (e.1, cur ++ e.2)) := by
  induction t generalizing cur with
  | Leaf s => simp [codes_from_tree_impl]
  | Parent z o ihz iho =>
    rw [codes_from_tree_impl, codes_from_tree_impl]
    rw [ihz (cur ++ [false]), iho (cur ++ [true]), ihz ([] ++ [false]),
        iho ([] ++ [true])]
    simp [Function.comp_def, List.append_assoc]

theorem mem_codes_from_tree_impl {t : HuffNode} {s : Nat} {p : List Bool} :
    (s, p) ∈ codes_from_tree_impl t [] ↔ occursAt t p (HuffNode.Leaf s) := by
  induction t generalizing p with
  | Leaf s' =>
    cases p with
    | nil =>
      rw [occursAt_nil, codes_from_tree_impl]
      constructor
      · intro h
        simp at h
        rw [h]
      · intro h
        simp [HuffNode.Leaf.inj h]
    | cons b p' =>
      rw [codes_from_tree_impl]
      simp [not_occursAt_leaf_cons]
  | Parent z o ihz iho =>
    rw [codes_from_tree_impl, codes_from_tree_impl_eq_map z,
        codes_from_tree_impl_eq_map o]
    cases p with
    | nil =>
      rw [occursAt_nil]
      constructor
      · intro h
        rcases List.mem_append.mp h with hm | hm <;>
          · obtain ⟨⟨a1, a2⟩, _, hae⟩ := List.mem_map.mp hm
            simp at hae
      · intro h
        exact absurd h (by simp)
    | cons b p' =>
      rw [occursAt_cons]
      constructor
      · intro h
        rcases List.mem_append.mp h with hm | hm
        · obtain ⟨⟨a1, a2⟩, ha, hae⟩ := List.mem_map.mp hm
          simp only [List.nil_append, List.singleton_append, Prod.mk.injEq,
            List.cons.injEq] at hae
          obtain ⟨h1, hb, hp⟩ := hae
          rw [← hb]
          rw [show (if (false : Bool) then o else z) = z from rfl]
          rw [← hp]
          exact ihz.mp (h1 ▸ ha)
        · obtain ⟨⟨a1, a2⟩, ha, hae⟩ := List.mem_map.mp hm
          simp only [List.nil_append, List.singleton_append, Prod.mk.injEq,
            List.cons.injEq] at hae
          obtain ⟨h1, hb, hp⟩ := hae
          rw [← hb]
          rw [show (if (true : Bool) then o else z) = o from rfl]
          rw [← hp]
          exact iho.mp (h1 ▸ ha)
      · intro h
        cases b with
        | false =>
          rw [show (if (false : Bool) then o else z) = z from rfl] at h
          exact List.mem_append.mpr (Or.inl
            (List.mem_map.mpr ⟨(s, p'), ihz.mpr h, by simp⟩))
        | true =>
          rw [show (if (true : Bool) then o else z) = o from rfl] at h
          exact List.mem_append.mpr (Or.inr
            (List.mem_map.mpr ⟨(s, p'), iho.mpr h, by simp⟩))

theorem map_fst_codes_from_tree_impl (t : HuffNode) :
    (codes_from_tree_impl t []).map Prod.fst = leaves t := by
  induction t with
  | Leaf s => simp [codes_from_tree_impl, leaves]
  | Parent z o ihz iho =>
    rw [codes_from_tree_impl, codes_from_tree_impl_eq_map z,
        codes_from_tree_impl_eq_map o, leaves, ← ihz, ← iho]
    simp [Function.comp_def]

theorem codes_from_tree_impl_ne_nil (t : HuffNode) (cur : List Bool) :
    codes_from_tree_impl t cur ≠ [] := by
  cases t with
  | Leaf s => simp [codes_from_tree_impl]
  | Parent z o =>
    rw [codes_from_tree_impl]
    intro h
    rcases List.append_eq_nil.mp h with ⟨h1, _⟩
    exact codes_from_tree_impl_ne_nil z _ h1

/-- Any two distinct writes produced by the traversal carry paths neither of
which is a prefix of the other (they lead to distinct leaves). -/
theorem codes_from_tree_impl_pairwise (t : HuffNode) (cur : List Bool) :
    (codes_from_tree_impl t cur).Pairwise
      (fun e1 e2 => ¬ e1.2 <+: e2.2 ∧ ¬ e2.2 <+: e1.2) := by
  induction t generalizing cur with
  | Leaf s => simp [codes_from_tree_impl]
  | Parent z o ihz iho =>
    rw [codes_from_tree_impl]
    rw [List.pairwise_append]
    refine ⟨ihz _, iho _, ?_⟩
    intro e1 h1 e2 h2
    rw [codes_from_tree_impl_eq_map] at h1 h2
    obtain ⟨a1, _, ha1⟩ := List.mem_map.mp h1
    obtain ⟨a2, _, ha2⟩ := List.mem_map.mp h2
    constructor
    · intro hpre
      obtain ⟨tail, htail⟩ := hpre
      rw [← ha1, ← ha2] at htail
      simp only [List.append_assoc] at htail
      have := List.append_cancel_left htail
      simp at this
    · intro hpre
      obtain ⟨tail, htail⟩ := hpre
      rw [← ha1, ← ha2] at htail
      simp only [List.append_assoc] at htail
      have := List.append_cancel_left htail
      simp at this

theorem leaves_ne_nil (t : HuffNode) : leaves t ≠ [] := by
  induction t with
  | Leaf s => simp [leaves]
  | Parent z o ihz _ =>
    rw [leaves]
    intro h
    exact ihz (List.append_eq_nil.mp h).1

/-- Each write's path is shorter than the number of leaves (so with at most
256 leaves no code exceeds 255 bits). -/
theorem codes_from_tree_impl_length_le (t : HuffNode) :
    ∀ e ∈ codes_from_tree_impl t [], e.2.length + 1 ≤ (leaves t).length := by
  induction t with
  | Leaf s => simp [codes_from_tree_impl, leaves]
  | Parent z o ihz iho =>
    intro e he
    rw [codes_from_tree_impl, codes_from_tree_impl_eq_map z,
        codes_from_tree_impl_eq_map o] at he
    have ho : 1 ≤ (leaves o).length := List.length_pos.mpr (leaves_ne_nil o)
    have hz : 1 ≤ (leaves z).length := List.length_pos.mpr (leaves_ne_nil z)
    rw [leaves, List.length_append]
    rcases List.mem_append.mp he with hm | hm
    · obtain ⟨a, ha, hae⟩ := List.mem_map.mp hm
      have := ihz a ha
      rw [← hae]
      simp
      omega
    · obtain ⟨a, ha, hae⟩ := List.mem_map.mp hm
      have := iho a ha
      rw [← hae]
      simp
      omega

/-! ### Code-table contents -/

theorem tableOf_not_mem {entries : List (Nat × List Bool)} {s : Nat}
    (h : s ∉ entries.map Prod.fst) : tableOf entries s = [] := by
  have hf : entries.filter (fun e => e.1 == s) = [] := by
    rw [List.filter_eq_nil_iff]
    intro e he hc
    exact h (List.mem_map.mpr ⟨e, he, by simpa using hc⟩)
  rw [tableOf, hf]
  rfl

theorem tableOf_mem {entries : List (Nat × List Bool)} {s : Nat} {p : List Bool}
    (h : (s, p) ∈ entries) : (s, tableOf entries s) ∈ entries := by
  have hf : (s, p) ∈ entries.filter (fun e => e.1 == s) :=
    List.mem_filter.mpr ⟨h, by simp⟩
  have hne : entries.filter (fun e => e.1 == s) ≠ [] := List.ne_nil_of_mem hf
  have hlast : (entries.filter (fun e => e.1 == s)).getLast? =
      some ((entries.filter (fun e => e.1 == s)).getLast hne) :=
    List.getLast?_eq_getLast _ hne
  have hmem := List.getLast_mem hne
  obtain ⟨hm1, hm2⟩ := List.mem_filter.mp hmem
  set e := (entries.filter (fun e => e.1 == s)).getLast hne with he_def
  have hs : e.1 = s := by simpa using hm2
  have htab : tableOf entries s = e.2 := by
    rw [tableOf, hlast]
    rfl
  rw [htab, ← hs, Prod.mk.eta]
  exact hm1

theorem tableOf_ne_nil_mem {entries : List (Nat × List Bool)} {s : Nat}
    (h : tableOf entries s ≠ []) : (s, tableOf entries s) ∈ entries := by
  by_cases hmem : ∃ p, (s, p) ∈ entries
  · obtain ⟨p, hp⟩ := hmem
    exact tableOf_mem hp
  · exfalso
    apply h
    apply tableOf_not_mem
    intro hc
    obtain ⟨e, he, hes⟩ := List.mem_map.mp hc
    exact hmem ⟨e.2, by rw [← hes]; simpa using he⟩

/-- Destructing a successful `codes_from_tree`. -/
theorem codes_from_tree_some {t : HuffNode} {table : Nat → List Bool}
    (h : codes_from_tree t = some table) :
    (∃ z o, t = HuffNode.Parent z o) ∧
    table = tableOf (codes_from_tree_impl t []) ∧
    ∀ e ∈ codes_from_tree_impl t [], 1 ≤ e.2.length ∧ e.2.length ≤ 255 := by
  cases t with
  | Leaf s => simp [codes_from_tree] at h
  | Parent z o =>
    rw [codes_from_tree] at h
    by_cases hall : ((codes_from_tree_impl (HuffNode.Parent z o) []).all
        (fun e => decide (1 ≤ e.2.length ∧ e.2.length ≤ 255))) = true
    · rw [if_pos hall] at h
      refine ⟨⟨z, o, rfl⟩, (Option.some.inj h).symm, ?_⟩
      intro e he
      have := List.all_eq_true.mp hall e he
      simpa using this
    · rw [if_neg hall] at h
      simp at h

/-- C5: for a tree built by `build_tree`, any two distinct symbols that both
have assigned (nonzero-length) codes in the derived table have codes neither
of which is a prefix of the other. -/
theorem codes_prefix_free {counts : SymbolCounts} {t : HuffNode}
    {table : Nat → List Bool} (_hbt : build_tree counts = some t)
    (hct : codes_from_tree t = some table) {a b : Nat} (hab : a ≠ b)
    (ha : table a ≠ []) (hb : table b ≠ []) : ¬ table a <+: table b := by
  obtain ⟨⟨z, o, hzo⟩, htab, _⟩ := codes_from_tree_some hct
  subst htab
  have hpa := tableOf_ne_nil_mem ha
  have hpb := tableOf_ne_nil_mem hb
  have hpw := codes_from_tree_impl_pairwise t []
  have hsym : Symmetric
      (fun (e1 e2 : Nat × List Bool) => ¬ e1.2 <+: e2.2 ∧ ¬ e2.2 <+: e1.2) :=
    fun x y hxy => ⟨hxy.2, hxy.1⟩
  have hne : (a, tableOf (codes_from_tree_impl t []) a)
      ≠ (b, tableOf (codes_from_tree_impl t []) b) := by
    intro hc
    exact hab (congrArg Prod.fst hc)
  exact (hpw.forall hsym hpa hpb hne).1

/-- C5 witness: the two codes of the tree built from `[0,0,0,1]`. -/
theorem codes_prefix_free_witness :
    ¬ tableOf (codes_from_tree_impl
        (HuffNode.Parent (HuffNode.Leaf 1) (HuffNode.Leaf 0)) []) 0
      <+: tableOf (codes_from_tree_impl
        (HuffNode.Parent (HuffNode.Leaf 1) (HuffNode.Leaf 0)) []) 1 := by
  have hbt : build_tree (count_symbols [0, 0, 0, 1])
      = some (HuffNode.Parent (HuffNode.Leaf 1) (HuffNode.Leaf 0)) := by decide
  exact codes_prefix_free hbt rfl (by decide) (by decide) (by decide)

/-! ### Leaf multiset preservation -/

theorem filterMap_ite_eq_filter_map {α β : Type} (p : α → Prop) [DecidablePred p]
    (g : α → β) (l : List α) :
    l.filterMap (fun s => if p s then some (g s) else none)
      = (l.filter (fun s => decide (p s))).map g := by
  induction l with
  | nil => rfl
  | cons a as ih => by_cases h : p a <;> simp [h, ih]

/-- The symbols with nonzero count, in increasing order. -/
def supportList (counts : SymbolCounts) : List Nat :=
  (List.range 256).filter (fun s => decide (0 < counts s))

theorem supportCard_eq (counts : SymbolCounts) :
    supportCard counts = (supportList counts).length := rfl

theorem initQueue_eq (counts : SymbolCounts) :
    initQueue counts
      = (supportList counts).map (fun s => (counts s, HuffNode.Leaf s)) :=
  filterMap_ite_eq_filter_map _ _ _

theorem supportList_nodup (counts : SymbolCounts) : (supportList counts).Nodup :=
  (List.nodup_range 256).filter _

theorem mem_supportList {counts : SymbolCounts} {s : Nat} :
    s ∈ supportList counts ↔ s < 256 ∧ 0 < counts s := by
  simp [supportList, List.mem_filter, List.mem_range]

theorem flatten_map_singleton {α : Type} (l : List α) :
    (l.map (fun s => [s])).flatten = l := by
  induction l with
  | nil => rfl
  | cons a as ih => simp [ih]

theorem buildLoopF_leaves_perm :
    ∀ (fuel : Nat) (q : List QElem) (T : HuffNode), buildLoopF fuel q = some T →
      (leaves T).Perm ((q.map (fun e => leaves e.2)).flatten) := by
  intro fuel
  induction fuel with
  | zero =>
    intro q T h
    simp [buildLoopF] at h
  | succ n ih =>
    intro q T h
    cases hq : popMin q with
    | none => rw [buildLoopF, hq] at h; simp at h
    | some p =>
      obtain ⟨f, q1⟩ := p
      cases hq1 : popMin q1 with
      | none =>
        simp only [buildLoopF, hq, hq1] at h
        have hT : f.2 = T := Option.some.inj h
        have hq1nil : q1 = [] := popMin_none.mp hq1
        subst hq1nil
        have hqp : q.Perm [f] := popMin_perm hq
        have := (hqp.map (fun e => leaves e.2)).flatten
        rw [← hT]
        simpa using this.symm
      | some p2 =>
        obtain ⟨s, q2⟩ := p2
        simp only [buildLoopF, hq, hq1] at h
        have hqp : q.Perm (f :: s :: q2) :=
          (popMin_perm hq).trans ((popMin_perm hq1).cons f)
        have hflat : ((q.map (fun e => leaves e.2)).flatten).Perm
            (leaves f.2 ++ (leaves s.2 ++ (q2.map (fun e => leaves e.2)).flatten)) := by
          have := (hqp.map (fun e => leaves e.2)).flatten
          simpa using this
        have hmerge : (leaves T).Perm
            ((q2.map (fun e => leaves e.2)).flatten ++ (leaves f.2 ++ leaves s.2)) := by
          have := ih _ _ h
          simpa [leaves] using this
        refine hmerge.trans (List.Perm.trans ?_ hflat.symm)
        rw [← List.append_assoc (leaves f.2) (leaves s.2)]
        exact List.perm_append_comm

/-- The leaves of a built tree are exactly the nonzero-count symbols, once
each. -/
theorem build_tree_leaves_perm {counts : SymbolCounts} {T : HuffNode}
    (h : build_tree counts = some T) : (leaves T).Perm (supportList counts) := by
  rw [build_tree] at h
  by_cases hlen : 1 < (initQueue counts).length
  · rw [if_pos hlen] at h
    have hperm := buildLoopF_leaves_perm _ _ _ h
    rw [initQueue_eq] at hperm
    simp only [List.map_map] at hperm
    have : ((supportList counts).map
        ((fun e : QElem => leaves e.2) ∘ fun s => (counts s, HuffNode.Leaf s)))
        = (supportList counts).map (fun s => [s]) := by
      apply List.map_congr_left
      intro a _
      simp [Function.comp_def, leaves]
    rw [this, flatten_map_singleton] at hperm
    exact hperm
  · rw [if_neg hlen] at h
    simp at h

theorem leaves_count_one {counts : SymbolCounts} {T : HuffNode} {s : Nat}
    (h : build_tree counts = some T) (hs : s ∈ supportList counts) :
    (leaves T).count s = 1 := by
  rw [(build_tree_leaves_perm h).count_eq]
  exact List.count_eq_one_of_mem (supportList_nodup counts) hs

/-- Paths of entries under a `Parent` root are nonempty. -/
theorem codes_from_tree_impl_length_pos {z o : HuffNode} :
    ∀ e ∈ codes_from_tree_impl (HuffNode.Parent z o) [], 1 ≤ e.2.length := by
  intro e he
  rw [codes_from_tree_impl, codes_from_tree_impl_eq_map z,
      codes_from_tree_impl_eq_map o] at he
  rcases List.mem_append.mp he with hm | hm <;>
    · obtain ⟨a, _, hae⟩ := List.mem_map.mp hm
      rw [← hae]
      simp

/-- For any tree built from at least two nonzero-count symbols,
`codes_from_tree` succeeds (no assertion fires: the root is a parent and all
code lengths lie in `1..=255`). -/
theorem codes_from_tree_isSome {counts : SymbolCounts} {T : HuffNode}
    (h2 : 2 ≤ supportCard counts) (h : build_tree counts = some T) :
    codes_from_tree T = some (tableOf (codes_from_tree_impl T [])) := by
  have hperm := build_tree_leaves_perm h
  have hlen : (leaves T).length = supportCard counts := by
    rw [supportCard_eq]
    exact hperm.length_eq
  have hle : (leaves T).length ≤ 256 := by
    rw [hlen, supportCard_eq]
    calc (supportList counts).length ≤ (List.range 256).length :=
          List.length_filter_le _ _
      _ = 256 := by simp
  cases T with
  | Leaf s =>
    exfalso
    have : (leaves (HuffNode.Leaf s)).length = 1 := by simp [leaves]
    omega
  | Parent z o =>
    rw [codes_from_tree]
    rw [if_pos]
    apply List.all_eq_true.mpr
    intro e he
    have hp1 := codes_from_tree_impl_length_pos e he
    have hp2 := codes_from_tree_impl_length_le (HuffNode.Parent z o) e he
    simp only [decide_eq_true_eq]
    omega

/-- C8: with at least two distinct nonzero-count symbols, the built tree and
derived code table exist, every nonzero-count symbol gets a code of length
between 1 and 255 bits and appears as exactly one leaf of the tree, and every
zero-count symbol keeps the empty (length-0) code. -/
theorem code_table_total {counts : SymbolCounts} (h2 : 2 ≤ supportCard counts) :
    ∃ T table, build_tree counts = some T ∧ codes_from_tree T = some table ∧
      (∀ s, s < 256 → 0 < counts s →
        1 ≤ (table s).length ∧ (table s).length ≤ 255 ∧ (leaves T).count s = 1) ∧
      (∀ s, counts s = 0 → table s = []) := by
  obtain ⟨T, hT⟩ := build_tree_isSome h2
  refine ⟨T, tableOf (codes_from_tree_impl T []), hT, codes_from_tree_isSome h2 hT,
    ?_, ?_⟩
  · intro s hs256 hspos
    have hsup : s ∈ supportList counts := mem_supportList.mpr ⟨hs256, hspos⟩
    have hleaf : s ∈ leaves T := (build_tree_leaves_perm hT).mem_iff.mpr hsup
    rw [← map_fst_codes_from_tree_impl T] at hleaf
    obtain ⟨e, he, hes⟩ := List.mem_map.mp hleaf
    have hmem : (s, e.2) ∈ codes_from_tree_impl T [] := by
      rw [← hes]
      simpa using he
    have htm := tableOf_mem hmem
    obtain ⟨_, _, hall⟩ := codes_from_tree_some (codes_from_tree_isSome h2 hT)
    have hb := hall _ htm
    exact ⟨hb.1, hb.2, leaves_count_one hT hsup⟩
  · intro s hs0
    apply tableOf_not_mem
    rw [map_fst_codes_from_tree_impl T]
    intro hc
    have := mem_supportList.mp ((build_tree_leaves_perm hT).mem_iff.mp hc)
    omega

/-- C8 witness: the input `[0,0,0,1]`. -/
theorem code_table_total_witness :
    2 ≤ supportCard (count_symbols [0, 0, 0, 1]) ∧
    ∃ T table, build_tree (count_symbols [0, 0, 0, 1]) = some T ∧
      codes_from_tree T = some table ∧
      (∀ s, s < 256 → 0 < count_symbols [0, 0, 0, 1] s →
        1 ≤ (table s).length ∧ (table s).length ≤ 255 ∧ (leaves T).count s = 1) ∧
      (∀ s, count_symbols [0, 0, 0, 1] s = 0 → table s = []) :=
  ⟨by decide, code_table_total (by decide)⟩

/-- C4 witness: a concrete three-element queue. -/
theorem merge_step_invariant_witness :
    (1:Nat) ≤ 2 ∧
    (∀ e ∈ [((3:Nat), HuffNode.Leaf 0), ((2:Nat), HuffNode.Leaf 2)], 1 ≤ e.1) ∧
    (∀ e ∈ [((3:Nat), HuffNode.Leaf 0)], 2 ≤ e.1) ∧
    buildLoop [((3:Nat), HuffNode.Leaf 0), (1, HuffNode.Leaf 1), (2, HuffNode.Leaf 2)]
      = buildLoop [((3:Nat), HuffNode.Leaf 0),
          (1 + 2, HuffNode.Parent (HuffNode.Leaf 1) (HuffNode.Leaf 2))] := by
  have h1 : popMin [((3:Nat), HuffNode.Leaf 0), (1, HuffNode.Leaf 1), (2, HuffNode.Leaf 2)]
      = some ((1, HuffNode.Leaf 1), [(3, HuffNode.Leaf 0), (2, HuffNode.Leaf 2)]) := by
    decide
  have h2 : popMin [((3:Nat), HuffNode.Leaf 0), (2, HuffNode.Leaf 2)]
      = some ((2, HuffNode.Leaf 2), [(3, HuffNode.Leaf 0)]) := by
    decide
  exact merge_step_invariant h1 h2

/-! ### Decoder lemmas -/

theorem decode_symbol_leaf {s' : Nat} {bits : List Bool} :
    decode_symbol (HuffNode.Leaf s') bits = some (s', bits) := by
  cases bits <;> rfl

theorem decode_symbol_parent_nil {z o : HuffNode} :
    decode_symbol (HuffNode.Parent z o) [] = none := rfl

theorem decode_symbol_parent_cons {z o : HuffNode} {b : Bool} {p : List Bool} :
    decode_symbol (HuffNode.Parent z o) (b :: p)
      = decode_symbol (if b then o else z) p := rfl

theorem decode_symbol_length_le {t : HuffNode} :
    ∀ {bits rest : List Bool} {s : Nat},
      decode_symbol t bits = some (s, rest) → rest.length ≤ bits.length := by
  induction t with
  | Leaf s' =>
    intro bits rest s h
    rw [decode_symbol_leaf] at h
    obtain ⟨_, h2⟩ := Prod.mk.injEq .. ▸ Option.some.inj h
    rw [← h2]
  | Parent z o ihz iho =>
    intro bits rest s h
    cases bits with
    | nil => rw [decode_symbol_parent_nil] at h; exact absurd h (by simp)
    | cons b tl =>
      rw [decode_symbol_parent_cons] at h
      cases b with
      | false =>
        rw [show (if (false : Bool) then o else z) = z from rfl] at h
        exact le_trans (ihz h) (by simp)
      | true =>
        rw [show (if (true : Bool) then o else z) = o from rfl] at h
        exact le_trans (iho h) (by simp)

/-- With a `Parent` root, every successful walk consumes at least one bit. -/
theorem decode_symbol_consumes {z o : HuffNode} {bits rest : List Bool} {s : Nat}
    (h : decode_symbol (HuffNode.Parent z o) bits = some (s, rest)) :
    rest.length < bits.length := by
  cases bits with
  | nil => rw [decode_symbol_parent_nil] at h; exact absurd h (by simp)
  | cons b tl =>
    rw [decode_symbol_parent_cons] at h
    have := decode_symbol_length_le h
    simp only [List.length_cons]
    omega

/-- C9: when the bits run out in the middle of a root-to-leaf walk
(`decode_symbol` returns `none`), the decode loop exits normally, emitting
exactly the symbols already written: the partial walk is discarded silently,
yields no symbol and raises no error. -/
theorem decode_partial_walk_discarded {t : HuffNode} {bits : List Bool}
    (h : decode_symbol t bits = none) (fuel : Nat) (out : List Nat) :
    decodeSteps (fuel + 1) t bits out = some out := by
  simp only [decodeSteps, h]

/-- C9 witness: one trailing bit against a two-level tree ends mid-walk and
is dropped without emitting anything beyond the prior output. -/
theorem decode_partial_walk_discarded_witness :
    decode_symbol
      (HuffNode.Parent (HuffNode.Parent (HuffNode.Leaf 0) (HuffNode.Leaf 1))
        (HuffNode.Leaf 2)) [false] = none ∧
    decodeSteps 4
      (HuffNode.Parent (HuffNode.Parent (HuffNode.Leaf 0) (HuffNode.Leaf 1))
        (HuffNode.Leaf 2)) [false] [7] = some [7] := by
  have h : decode_symbol
      (HuffNode.Parent (HuffNode.Parent (HuffNode.Leaf 0) (HuffNode.Leaf 1))
        (HuffNode.Leaf 2)) [false] = none := rfl
  exact ⟨h, decode_partial_walk_discarded h 3 [7]⟩

theorem decodeSteps_leaf_none (sym : Nat) (bits : List Bool) :
    ∀ (fuel : Nat) (out : List Nat),
      decodeSteps fuel (HuffNode.Leaf sym) bits out = none := by
  intro fuel
  induction fuel with
  | zero => intro out; rfl
  | succ n ih =>
    intro out
    simp only [decodeSteps, decode_symbol_leaf]
    exact ih _

theorem decodeSteps_parent_some {z o : HuffNode} :
    ∀ (n : Nat) (bits : List Bool) (out : List Nat), bits.length < n →
      ∃ res, decodeSteps n (HuffNode.Parent z o) bits out = some res := by
  intro n
  induction n with
  | zero => intro bits out h; omega
  | succ m ih =>
    intro bits out h
    cases hds : decode_symbol (HuffNode.Parent z o) bits with
    | none => exact ⟨out, by simp only [decodeSteps, hds]⟩
    | some p =>
      obtain ⟨s, rest⟩ := p
      have hlt := decode_symbol_consumes hds
      obtain ⟨res, hres⟩ := ih rest (out ++ [s]) (by omega)
      exact ⟨res, by simp only [decodeSteps, hds]; exact hres⟩

theorem decodeSteps_mono {t : HuffNode} :
    ∀ (fuel : Nat) (bits : List Bool) (out res : List Nat),
      decodeSteps fuel t bits out = some res →
      ∀ fuel', fuel ≤ fuel' → decodeSteps fuel' t bits out = some res := by
  intro fuel
  induction fuel with
  | zero =>
    intro bits out res h
    simp [decodeSteps] at h
  | succ n ih =>
    intro bits out res h fuel' hle
    obtain ⟨m, rfl⟩ : ∃ m, fuel' = m + 1 := ⟨fuel' - 1, by omega⟩
    cases hds : decode_symbol t bits with
    | none =>
      simp only [decodeSteps, hds] at h ⊢
      exact h
    | some p =>
      obtain ⟨s, rest⟩ := p
      simp only [decodeSteps, hds] at h ⊢
      exact ih _ _ _ h m (by omega)

/-- C10: the decode loop on any finite byte input terminates exactly when the
root is a `Parent`.  With a `Parent` root every emitted symbol consumes at
least one bit and `bits + 1` iterations always suffice, yielding a result
independent of extra fuel; with a `Leaf` root every iteration emits the
leaf's symbol while consuming no bits, and no amount of fuel ever makes the
loop exit. -/
theorem decode_terminates_iff_parent_root (t : HuffNode) (bytes : List Nat) :
    (∀ z o, t = HuffNode.Parent z o →
      (∀ s rest, decode_symbol t (bytesBits bytes) = some (s, rest) →
        rest.length < (bytesBits bytes).length) ∧
      ∃ res, ∀ fuel, (bytesBits bytes).length < fuel →
        decodeSteps fuel t (bytesBits bytes) [] = some res) ∧
    (∀ sym, t = HuffNode.Leaf sym →
      decode_symbol t (bytesBits bytes) = some (sym, bytesBits bytes) ∧
      ∀ fuel out, decodeSteps fuel t (bytesBits bytes) out = none) := by
  constructor
  · rintro z o rfl
    constructor
    · intro s rest h
      exact decode_symbol_consumes h
    · obtain ⟨res, hres⟩ :=
        decodeSteps_parent_some (z := z) (o := o)
          ((bytesBits bytes).length + 1) (bytesBits bytes) [] (by omega)
      exact ⟨res, fun fuel hf => decodeSteps_mono _ _ _ _ hres fuel (by omega)⟩
  · rintro sym rfl
    exact ⟨decode_symbol_leaf, decodeSteps_leaf_none sym (bytesBits bytes)⟩

/-- C10 witness: a parent-rooted decode of one byte terminates; a leaf-rooted
decode of even the empty input never does. -/
theorem decode_terminates_iff_parent_root_witness :
    (∃ res, ∀ fuel, (bytesBits [170]).length < fuel →
      decodeSteps fuel (HuffNode.Parent (HuffNode.Leaf 1) (HuffNode.Leaf 0))
        (bytesBits [170]) [] = some res) ∧
    (∀ fuel out,
      decodeSteps fuel (HuffNode.Leaf 5) (bytesBits []) out = none) :=
  ⟨((decode_terminates_iff_parent_root
      (HuffNode.Parent (HuffNode.Leaf 1) (HuffNode.Leaf 0)) [170]).1
        (HuffNode.Leaf 1) (HuffNode.Leaf 0) rfl).2,
   ((decode_terminates_iff_parent_root (HuffNode.Leaf 5) []).2 5 rfl).2⟩

/-! ### Encoder lemmas -/

theorem byteBits_bitsToByte :
    ∀ b0 b1 b2 b3 b4 b5 b6 b7 : Bool,
      byteBits (bitsToByte [b0, b1, b2, b3, b4, b5, b6, b7])
        = [b0, b1, b2, b3, b4, b5, b6, b7] := by decide

theorem bytesBits_cons (x : Nat) (l : List Nat) :
    bytesBits (x :: l) = byteBits x ++ bytesBits l := by
  simp [bytesBits]

theorem bytesBits_append (a b : List Nat) :
    bytesBits (a ++ b) = bytesBits a ++ bytesBits b := by
  simp [bytesBits]

theorem bytesBits_length (a : List Nat) : (bytesBits a).length = 8 * a.length := by
  induction a with
  | nil => rfl
  | cons x xs ih =>
    rw [bytesBits_cons, List.length_append, ih]
    simp [byteBits]
    omega

theorem emitFull_short {acc : List Bool} (h : acc.length < 8) :
    emitFull acc = ([], acc) := by
  rcases acc with _ | ⟨b0, _ | ⟨b1, _ | ⟨b2, _ | ⟨b3, _ | ⟨b4, _ | ⟨b5, _ |
    ⟨b6, _ | ⟨b7, rest⟩⟩⟩⟩⟩⟩⟩⟩
  · rfl
  · rfl
  · rfl
  · rfl
  · rfl
  · rfl
  · rfl
  · rfl
  · simp only [List.length_cons] at h
    omega

theorem emitFull_cons8 (b0 b1 b2 b3 b4 b5 b6 b7 : Bool) (rest : List Bool) :
    emitFull (b0 :: b1 :: b2 :: b3 :: b4 :: b5 :: b6 :: b7 :: rest)
      = (bitsToByte [b0, b1, b2, b3, b4, b5, b6, b7] :: (emitFull rest).1,
         (emitFull rest).2) := rfl

theorem emitFull_spec_aux :
    ∀ (n : Nat) (acc : List Bool), acc.length ≤ n →
      bytesBits (emitFull acc).1 ++ (emitFull acc).2 = acc ∧
      (emitFull acc).2.length < 8 ∧
      (emitFull acc).1.length * 8 + (emitFull acc).2.length = acc.length := by
  intro n
  induction n using Nat.strong_induction_on with
  | _ n ih =>
    intro acc hle
    by_cases h8 : acc.length < 8
    · rw [emitFull_short h8]
      exact ⟨by simp [bytesBits], h8, by simp⟩
    · rcases acc with _ | ⟨b0, _ | ⟨b1, _ | ⟨b2, _ | ⟨b3, _ | ⟨b4, _ | ⟨b5, _ |
        ⟨b6, _ | ⟨b7, rest⟩⟩⟩⟩⟩⟩⟩⟩ <;>
        first
        | (exfalso; simp only [List.length_nil, List.length_cons] at h8; omega)
        | skip
      simp only [List.length_cons] at hle
      obtain ⟨ih1, ih2, ih3⟩ := ih rest.length (by omega) rest le_rfl
      rw [emitFull_cons8]
      refine ⟨?_, ih2, ?_⟩
      · rw [bytesBits_cons, byteBits_bitsToByte, List.append_assoc, ih1]
        rfl
      · simp only [List.length_cons]
        omega

theorem emitFull_spec (acc : List Bool) :
    bytesBits (emitFull acc).1 ++ (emitFull acc).2 = acc ∧
    (emitFull acc).2.length < 8 ∧
    (emitFull acc).1.length * 8 + (emitFull acc).2.length = acc.length :=
  emitFull_spec_aux acc.length acc le_rfl

theorem encodeStep_spec (codes : Nat → List Bool) (st : List Nat × List Bool)
    (x : Nat) :
    bytesBits (encodeStep codes st x).1 ++ (encodeStep codes st x).2
      = (bytesBits st.1 ++ st.2) ++ codes x ∧
    (encodeStep codes st x).2.length < 8 := by
  obtain ⟨e1, e2, _⟩ := emitFull_spec (st.2 ++ codes x)
  constructor
  · rw [encodeStep]
    rw [bytesBits_append, List.append_assoc, e1, ← List.append_assoc]
  · rw [encodeStep]
    exact e2

theorem encodeFold_invariant (codes : Nat → List Bool) :
    ∀ (input : List Nat) (st : List Nat × List Bool),
      bytesBits (input.foldl (encodeStep codes) st).1
          ++ (input.foldl (encodeStep codes) st).2
        = (bytesBits st.1 ++ st.2) ++ (input.map codes).flatten ∧
      (st.2.length < 8 → (input.foldl (encodeStep codes) st).2.length < 8) := by
  intro input
  induction input with
  | nil =>
    intro st
    exact ⟨by simp, fun h => h⟩
  | cons x xs ih =>
    intro st
    simp only [List.foldl_cons, List.map_cons, List.flatten_cons]
    obtain ⟨ih1, ih2⟩ := ih (encodeStep codes st x)
    obtain ⟨hs1, hs2⟩ := encodeStep_spec codes st x
    refine ⟨?_, fun _ => ih2 hs2⟩
    rw [ih1, hs1, List.append_assoc]

/-- C7: `encode` writes exactly `⌊B/8⌋` output bytes, where `B` is the total
number of code bits of the input; those bytes carry exactly the first
`8⌊B/8⌋` code bits, and the final `B mod 8` bits stay in the pending bit
buffer, never padded into or emitted as a final byte. -/
theorem encode_writes_full_bytes_only (input : List Nat) (codes : Nat → List Bool) :
    (encode input codes).length = (input.map codes).flatten.length / 8 ∧
    (encodeFold input codes).2.length = (input.map codes).flatten.length % 8 ∧
    bytesBits (encode input codes) ++ (encodeFold input codes).2
      = (input.map codes).flatten := by
  obtain ⟨h1, h2⟩ := encodeFold_invariant codes input ([], [])
  have hlt : (input.foldl (encodeStep codes) ([], [])).2.length < 8 :=
    h2 (by simp)
  have hflat : bytesBits (input.foldl (encodeStep codes) ([], [])).1
      ++ (input.foldl (encodeStep codes) ([], [])).2
      = (input.map codes).flatten := by
    rw [h1]
    simp [bytesBits]
  have hlen := congrArg List.length hflat
  rw [List.length_append, bytesBits_length] at hlen
  rw [encode, encodeFold]
  refine ⟨by omega, by omega, hflat⟩

/-- C2 (code bug): `encode` never checks that an input byte has a code.  A
byte absent from the table (code length 0) contributes no bits and is
silently skipped: prepending such a byte leaves the output identical, and no
error is reported (`encode` is a total function with no error channel).
Here byte `0` has no code in the table derived from counts of `[1,2]`. -/
theorem encode_missing_code_silently_skipped :
    tableOf (codes_from_tree_impl
      (HuffNode.Parent (HuffNode.Leaf 1) (HuffNode.Leaf 2)) []) 0 = [] ∧
    encode (0 :: [1, 2, 1, 2, 1, 2, 1, 2])
        (tableOf (codes_from_tree_impl
          (HuffNode.Parent (HuffNode.Leaf 1) (HuffNode.Leaf 2)) []))
      = encode [1, 2, 1, 2, 1, 2, 1, 2]
        (tableOf (codes_from_tree_impl
          (HuffNode.Parent (HuffNode.Leaf 1) (HuffNode.Leaf 2)) []))
    ∧ encode (0 :: [1, 2, 1, 2, 1, 2, 1, 2])
        (tableOf (codes_from_tree_impl
          (HuffNode.Parent (HuffNode.Leaf 1) (HuffNode.Leaf 2)) []))
      = [170] := by
  decide

/-! ### Round trip -/

theorem decode_symbol_of_occursAt :
    ∀ (p : List Bool) (t : HuffNode) (s : Nat) (rest : List Bool),
      occursAt t p (HuffNode.Leaf s) →
      decode_symbol t (p ++ rest) = some (s, rest) := by
  intro p
  induction p with
  | nil =>
    intro t s rest h
    rw [occursAt_nil] at h
    rw [h, List.nil_append]
    exact decode_symbol_leaf
  | cons b p' ih =>
    intro t s rest h
    cases t with
    | Leaf s' => exact absurd h not_occursAt_leaf_cons
    | Parent z o =>
      rw [occursAt_cons] at h
      rw [List.cons_append, decode_symbol_parent_cons]
      exact ih _ _ _ h

theorem occursAt_parent_ne_nil {z o : HuffNode} {p : List Bool} {s : Nat}
    (h : occursAt (HuffNode.Parent z o) p (HuffNode.Leaf s)) : p ≠ [] := by
  intro hc
  subst hc
  rw [occursAt_nil] at h
  exact absurd h (by simp)

/-- Decoding the concatenation of root-to-leaf codes recovers the symbols. -/
theorem decodeSteps_decodes_stream {z o : HuffNode} {table : Nat → List Bool} :
    ∀ (xs : List Nat) (out : List Nat) (fuel : Nat),
      (∀ x ∈ xs, occursAt (HuffNode.Parent z o) (table x) (HuffNode.Leaf x)) →
      ((xs.map table).flatten).length < fuel →
      decodeSteps fuel (HuffNode.Parent z o) ((xs.map table).flatten) out
        = some (out ++ xs) := by
  intro xs
  induction xs with
  | nil =>
    intro out fuel hocc hf
    obtain ⟨m, rfl⟩ : ∃ m, fuel = m + 1 := ⟨fuel - 1, by omega⟩
    simp only [List.map_nil, List.flatten_nil, decodeSteps,
      decode_symbol_parent_nil, List.append_nil]
  | cons x xs ih =>
    intro out fuel hocc hf
    obtain ⟨m, rfl⟩ : ∃ m, fuel = m + 1 := ⟨fuel - 1, by omega⟩
    have hx := hocc x (List.mem_cons_self x xs)
    have hne := occursAt_parent_ne_nil hx
    simp only [List.map_cons, List.flatten_cons] at hf ⊢
    have hds := decode_symbol_of_occursAt (table x) _ x ((xs.map table).flatten) hx
    simp only [decodeSteps, hds]
    have hlen : ((xs.map table).flatten).length < m := by
      have h1 : 1 ≤ (table x).length := List.length_pos.mpr hne
      rw [List.length_append] at hf
      omega
    rw [ih (out ++ [x]) m (fun y hy => hocc y (List.mem_cons_of_mem x hy)) hlen]
    simp

/-- A nonzero-count byte's table entry is its leaf's root-to-leaf path. -/
theorem table_occursAt {counts : SymbolCounts} {T : HuffNode}
    {table : Nat → List Bool}
    (hbt : build_tree counts = some T) (hct : codes_from_tree T = some table)
    {x : Nat} (hx : x < 256) (hpos : 0 < counts x) :
    occursAt T (table x) (HuffNode.Leaf x) := by
  obtain ⟨_, htab, _⟩ := codes_from_tree_some hct
  subst htab
  have hsup : x ∈ supportList counts := mem_supportList.mpr ⟨hx, hpos⟩
  have hleaf : x ∈ leaves T := (build_tree_leaves_perm hbt).mem_iff.mpr hsup
  rw [← map_fst_codes_from_tree_impl T] at hleaf
  obtain ⟨e, he, hes⟩ := List.mem_map.mp hleaf
  have hmem : (x, e.2) ∈ codes_from_tree_impl T [] := by
    rw [← hes]
    simpa using he
  exact mem_codes_from_tree_impl.mp (tableOf_mem hmem)

/-- C1 counterexample: `[0,0,0,1]` has two distinct byte values, but its 4
code bits form no full byte, so `encode` emits nothing and decoding the
encoding yields `[]`, not the original sequence. -/
theorem round_trip_loses_partial_byte :
    supportCard (count_symbols [0, 0, 0, 1]) = 2 ∧
    roundTrip [0, 0, 0, 1] = some [] ∧
    roundTrip [0, 0, 0, 1] ≠ some [0, 0, 0, 1] := by
  decide

/-- C1 (amended): when the total number of code bits of the input is a
multiple of 8 — so that `encode`'s pending buffer is empty at end of input —
decoding the encoding with the tree built from the input's own counts
reproduces the input exactly.  (Otherwise the trailing `B mod 8` bits are
never emitted and the corresponding tail of the input is lost.) -/
theorem round_trip_on_byte_aligned {input : List Nat} {T : HuffNode}
    {table : Nat → List Bool}
    (h256 : ∀ b ∈ input, b < 256)
    (hbt : build_tree (count_symbols input) = some T)
    (hct : codes_from_tree T = some table)
    (hmod : ((input.map table).flatten).length % 8 = 0) :
    roundTrip input = some input := by
  obtain ⟨⟨z, o, hzo⟩, _, _⟩ := codes_from_tree_some hct
  obtain ⟨h1, h2⟩ := encodeFold_invariant table input ([], [])
  have hflat : bytesBits (encode input table)
      ++ (input.foldl (encodeStep table) ([], [])).2
      = (input.map table).flatten := by
    rw [encode, encodeFold, h1]
    simp [bytesBits]
  have hlt : (input.foldl (encodeStep table) ([], [])).2.length < 8 :=
    h2 (by simp)
  have hlen := congrArg List.length hflat
  rw [List.length_append, bytesBits_length] at hlen
  have hacc0 : (input.foldl (encodeStep table) ([], [])).2.length = 0 := by
    omega
  have haccnil : (input.foldl (encodeStep table) ([], [])).2 = [] :=
    List.eq_nil_of_length_eq_zero hacc0
  have hbits : bytesBits (encode input table) = (input.map table).flatten := by
    rw [← hflat, haccnil, List.append_nil]
  have hocc : ∀ x ∈ input, occursAt T (table x) (HuffNode.Leaf x) := by
    intro x hxmem
    apply table_occursAt hbt hct (h256 x hxmem)
    show 0 < input.count x
    exact List.count_pos_iff.mpr hxmem
  simp only [roundTrip, hbt, hct]
  rw [hbits, decode]
  subst hzo
  have := decodeSteps_decodes_stream input []
    ((input.map table).flatten.length + 1) hocc (by omega)
  simpa using this

/-- C1 witness (for the amended claim): eight bytes alternating `0`/`1`
encode to exactly one byte and decode back to the input. -/
theorem round_trip_on_byte_aligned_witness :
    roundTrip [0, 1, 0, 1, 0, 1, 0, 1] = some [0, 1, 0, 1, 0, 1, 0, 1] := by
  have hbt : build_tree (count_symbols [0, 1, 0, 1, 0, 1, 0, 1])
      = some (HuffNode.Parent (HuffNode.Leaf 0) (HuffNode.Leaf 1)) := by decide
  have hct : codes_from_tree (HuffNode.Parent (HuffNode.Leaf 0) (HuffNode.Leaf 1))
      = some (tableOf (codes_from_tree_impl
          (HuffNode.Parent (HuffNode.Leaf 0) (HuffNode.Leaf 1)) [])) := rfl
  exact round_trip_on_byte_aligned (by decide) hbt hct (by decide)

/-! ### Depth invariant of the tree builder (towards C6) -/

theorem size_pos (t : HuffNode) : 0 < size t := by
  cases t <;> simp [size]

theorem occursAt_size :
    ∀ (p : List Bool) (T t : HuffNode), occursAt T p t →
      size t + p.length ≤ size T := by
  intro p
  induction p with
  | nil =>
    intro T t h
    rw [occursAt_nil] at h
    subst h
    simp
  | cons b p' ih =>
    intro T t h
    cases T with
    | Leaf s => exact absurd h not_occursAt_leaf_cons
    | Parent z o =>
      rw [occursAt_cons] at h
      cases b with
      | false =>
        rw [show (if (false : Bool) then o else z) = z from rfl] at h
        have h1 := ih z t h
        have h2 := size_pos o
        simp only [size, List.length_cons]
        omega
      | true =>
        rw [show (if (true : Bool) then o else z) = o from rfl] at h
        have h1 := ih o t h
        have h2 := size_pos z
        simp only [size, List.length_cons]
        omega

theorem occursAt_self_nil {T : HuffNode} {p : List Bool}
    (h : occursAt T p T) : p = [] := by
  have := occursAt_size p T T h
  cases p with
  | nil => rfl
  | cons b p' =>
    simp only [List.length_cons] at this
    omega

theorem occursAt_leaves_subset :
    ∀ (p : List Bool) (T t : HuffNode), occursAt T p t →
      ∀ s, s ∈ leaves t → s ∈ leaves T := by
  intro p
  induction p with
  | nil =>
    intro T t h s hs
    rw [occursAt_nil] at h
    rw [h]
    exact hs
  | cons b p' ih =>
    intro T t h s hs
    cases T with
    | Leaf s' => exact absurd h not_occursAt_leaf_cons
    | Parent z o =>
      rw [occursAt_cons] at h
      rw [leaves]
      cases b with
      | false =>
        rw [show (if (false : Bool) then o else z) = z from rfl] at h
        exact List.mem_append.mpr (Or.inl (ih z t h s hs))
      | true =>
        rw [show (if (true : Bool) then o else z) = o from rfl] at h
        exact List.mem_append.mpr (Or.inr (ih o t h s hs))

theorem occursAt_children :
    ∀ (p : List Bool) (T z o : HuffNode), occursAt T p (HuffNode.Parent z o) →
      occursAt T (p ++ [false]) z ∧ occursAt T (p ++ [true]) o := by
  intro p
  induction p with
  | nil =>
    intro T z o h
    rw [occursAt_nil] at h
    subst h
    exact ⟨rfl, rfl⟩
  | cons b p' ih =>
    intro T z o h
    cases T with
    | Leaf s => exact absurd h not_occursAt_leaf_cons
    | Parent zz oo =>
      rw [occursAt_cons] at h
      obtain ⟨h1, h2⟩ := ih _ _ _ h
      rw [List.cons_append, List.cons_append]
      exact ⟨occursAt_cons.mpr h1, occursAt_cons.mpr h2⟩

theorem occursAt_unique :
    ∀ (T : HuffNode), (leaves T).Nodup →
      ∀ (t : HuffNode) (p1 p2 : List Bool),
        occursAt T p1 t → occursAt T p2 t → p1 = p2 := by
  intro T
  induction T with
  | Leaf s =>
    intro _ t p1 p2 h1 h2
    cases p1 with
    | cons b p => exact absurd h1 not_occursAt_leaf_cons
    | nil =>
      cases p2 with
      | cons b p => exact absurd h2 not_occursAt_leaf_cons
      | nil => rfl
  | Parent z o ihz iho =>
    intro hN t p1 p2 h1 h2
    rw [leaves, List.nodup_append] at hN
    obtain ⟨hNz, hNo, hdisj⟩ := hN
    cases p1 with
    | nil =>
      rw [occursAt_nil] at h1
      subst h1
      cases p2 with
      | nil => rfl
      | cons b2 q2 =>
        have := occursAt_self_nil h2
        exact absurd this (by simp)
    | cons b1 q1 =>
      cases p2 with
      | nil =>
        rw [occursAt_nil] at h2
        subst h2
        have := occursAt_self_nil h1
        exact absurd this (by simp)
      | cons b2 q2 =>
        rw [occursAt_cons] at h1 h2
        by_cases hb : b1 = b2
        · subst hb
          cases b1 with
          | false =>
            rw [show (if (false : Bool) then o else z) = z from rfl] at h1 h2
            rw [ihz hNz t q1 q2 h1 h2]
          | true =>
            rw [show (if (true : Bool) then o else z) = o from rfl] at h1 h2
            rw [iho hNo t q1 q2 h1 h2]
        · exfalso
          obtain ⟨s, hsmem⟩ := List.exists_mem_of_ne_nil (leaves t) (leaves_ne_nil t)
          cases b1 with
          | false =>
            have hb2 : b2 = true := by
              cases b2
              · exact absurd rfl hb
              · rfl
            subst hb2
            rw [show (if (false : Bool) then o else z) = z from rfl] at h1
            rw [show (if (true : Bool) then o else z) = o from rfl] at h2
            exact hdisj (occursAt_leaves_subset q1 z t h1 s hsmem)
              (occursAt_leaves_subset q2 o t h2 s hsmem)
          | true =>
            have hb2 : b2 = false := by
              cases b2
              · rfl
              · exact absurd rfl hb
            subst hb2
            rw [show (if (true : Bool) then o else z) = o from rfl] at h1
            rw [show (if (false : Bool) then o else z) = z from rfl] at h2
            exact hdisj (occursAt_leaves_subset q2 z t h2 s hsmem)
              (occursAt_leaves_subset q1 o t h1 s hsmem)

/-! ### Sublist utilities for positional reasoning -/

theorem sublist_flatten {α : Type} :
    ∀ {s t : List (List α)}, s.Sublist t → s.flatten.Sublist t.flatten := by
  intro s t h
  induction h with
  | slnil => exact List.Sublist.refl _
  | cons a _ ih =>
    simp only [List.flatten_cons]
    exact ih.trans (List.sublist_append_right _ _)
  | cons₂ a _ ih =>
    simp only [List.flatten_cons]
    exact ih.append_left a

theorem pair_sublist_of_mem {α : Type} {a b : α} {A B : List α}
    (ha : a ∈ A) (hb : b ∈ B) : [a, b].Sublist (A ++ B) :=
  (List.singleton_sublist.mpr ha).append (List.singleton_sublist.mpr hb)

theorem sublist_remove_mid {α : Type} :
    ∀ {s : List α} {x : α} (l r : List α), s.Sublist (l ++ x :: r) → x ∉ s →
      s.Sublist (l ++ r) := by
  intro s x l
  induction l generalizing s with
  | nil =>
    intro r h hx
    cases h with
    | cons _ h' => exact h'
    | cons₂ _ h' => exact absurd (List.mem_cons_self _ _) hx
  | cons c l' ih =>
    intro r h hx
    cases h with
    | cons _ h' => exact (ih r h' hx).cons c
    | cons₂ _ h' =>
      exact (ih r h' (fun hc => hx (List.mem_cons_of_mem c hc))).cons₂ c

theorem mem_left_of_pair_sublist {α : Type} :
    ∀ {a b : α} (l r : List α), [a, b].Sublist (l ++ b :: r) →
      a ≠ b → b ∉ l → b ∉ r → a ∈ l := by
  intro a b l
  induction l with
  | nil =>
    intro r h hne _ hbr
    exfalso
    cases h with
    | cons _ h' => exact hbr (h'.subset (by simp))
    | cons₂ _ h' => exact hne rfl
  | cons c l' ih =>
    intro r h hne hbl hbr
    cases h with
    | cons _ h' =>
      exact List.mem_cons_of_mem c
        (ih r h' hne (fun hc => hbl (List.mem_cons_of_mem c hc)) hbr)
    | cons₂ _ h' => exact List.mem_cons_self _ _

theorem pair_sublist_of_mem_ne {α : Type} :
    ∀ (l : List α) {a b : α}, a ∈ l → b ∈ l → a ≠ b →
      [a, b].Sublist l ∨ [b, a].Sublist l := by
  intro l
  induction l with
  | nil => intro a b ha _ _; exact absurd ha (by simp)
  | cons c t ih =>
    intro a b ha hb hne
    by_cases hca : c = a
    · subst hca
      have hbt : b ∈ t := by
        rcases List.mem_cons.mp hb with h | h
        · exact absurd h.symm hne
        · exact h
      exact Or.inl ((List.singleton_sublist.mpr hbt).cons₂ c)
    · by_cases hcb : c = b
      · subst hcb
        have hat : a ∈ t := by
          rcases List.mem_cons.mp ha with h | h
          · exact absurd h.symm hca
          · exact h
        exact Or.inr ((List.singleton_sublist.mpr hat).cons₂ c)
      · have hat : a ∈ t := by
          rcases List.mem_cons.mp ha with h | h
          · exact absurd h.symm hca
          · exact h
        have hbt : b ∈ t := by
          rcases List.mem_cons.mp hb with h | h
          · exact absurd h.symm hcb
          · exact h
        rcases ih hat hbt hne with h | h
        · exact Or.inl (h.cons c)
        · exact Or.inr (h.cons c)

theorem syms_sublist {s q : List QElem} (h : s.Sublist q) :
    ((s.map (fun e => leaves e.2)).flatten).Sublist
      ((q.map (fun e => leaves e.2)).flatten) :=
  sublist_flatten (h.map _)

/-- Two elements standing at different positions of a queue whose leaf
symbols are globally distinct have disjoint leaf sets. -/
theorem pair_disjoint_of_nodup {q : List QElem} {u v : QElem}
    (hN : ((q.map (fun e => leaves e.2)).flatten).Nodup)
    (h : [u, v].Sublist q) :
    ∀ s, s ∈ leaves u.2 → s ∉ leaves v.2 := by
  have hnd := List.Nodup.sublist (syms_sublist h) hN
  simp only [List.map_cons, List.map_nil, List.flatten_cons, List.flatten_nil,
    List.append_nil] at hnd
  rw [List.nodup_append] at hnd
  exact fun s hs1 hs2 => hnd.2.2 hs1 hs2

theorem not_pair_self_of_nodup {q : List QElem} {u : QElem}
    (hN : ((q.map (fun e => leaves e.2)).flatten).Nodup)
    (h : [u, u].Sublist q) : False := by
  obtain ⟨s, hs⟩ := List.exists_mem_of_ne_nil (leaves u.2) (leaves_ne_nil u.2)
  exact pair_disjoint_of_nodup hN h s hs hs

/-- The depth comparison guaranteed in the final tree `T` between a queue
element `u` and an element `v` standing later in the queue: a strictly
heavier element is never deeper, and of two equal-weight elements the later
one is at most as deep as the earlier one, which in turn is deeper by at
most one. -/
def DepthRel (T : HuffNode) (u v : QElem) : Prop :=
  ∀ pu pv, occursAt T pu u.2 → occursAt T pv v.2 →
    (v.1 < u.1 → pu.length ≤ pv.length) ∧
    (u.1 < v.1 → pv.length ≤ pu.length) ∧
    (u.1 = v.1 → pv.length ≤ pu.length ∧ pu.length ≤ pv.length + 1)

/-- Master invariant of the builder loop (positive weights, globally
distinct leaf symbols): in the final tree every queue element occurs as a
subtree; elements compare as in `DepthRel`; and any element whose weight is
at most twice every current weight ends at most one level shallower than
anything else. -/
theorem buildLoop_invariant :
    ∀ (n : Nat) (q : List QElem) (T : HuffNode),
      q.length ≤ n →
      buildLoopF q.length q = some T →
      (∀ e ∈ q, 0 < e.1) →
      ((q.map (fun e => leaves e.2)).flatten).Nodup →
      (∀ e ∈ q, ∃ p, occursAt T p e.2) ∧
      List.Pairwise (DepthRel T) q ∧
      (∀ v ∈ q, (∀ e ∈ q, v.1 ≤ 2 * e.1) →
        ∀ u ∈ q, ∀ pu pv, occursAt T pu u.2 → occursAt T pv v.2 →
          pu.length ≤ pv.length + 1) := by
  intro n
  induction n with
  | zero =>
    intro q T hlen hT _ _
    have hq0 : q = [] := by
      cases q with
      | nil => rfl
      | cons a as => simp at hlen
    subst hq0
    simp [buildLoopF] at hT
  | succ n ih =>
    intro q T hlen hT hpos hN
    cases hq : popMin q with
    | none =>
      have hq0 : q = [] := popMin_none.mp hq
      subst hq0
      simp [buildLoopF] at hT
    | some p =>
      obtain ⟨x, q1⟩ := p
      cases hq1 : popMin q1 with
      | none =>
        have hq1nil : q1 = [] := popMin_none.mp hq1
        subst hq1nil
        obtain ⟨l, r, hsp1, hsp2, _, _⟩ := popMin_split hq
        have hl : l = [] := (List.append_eq_nil.mp hsp2.symm).1
        have hr : r = [] := (List.append_eq_nil.mp hsp2.symm).2
        subst hl; subst hr
        simp only [List.nil_append] at hsp1
        subst hsp1
        simp only [List.length_cons, List.length_nil] at hT
        simp only [buildLoopF, hq, hq1] at hT
        have hTx : x.2 = T := Option.some.inj hT
        subst hTx
        refine ⟨?_, ?_, ?_⟩
        · intro e he
          rw [List.mem_singleton] at he
          subst he
          exact ⟨[], rfl⟩
        · simp
        · intro v hv _ u hu pu pv hpu hpv
          rw [List.mem_singleton] at hv hu
          subst hv; subst hu
          rw [occursAt_self_nil hpu, occursAt_self_nil hpv]
          simp
      | some p2 =>
        obtain ⟨y, q2⟩ := p2
        have hlq := popMin_length hq
        have hlq1 := popMin_length hq1
        have hql : q.length = q2.length + 2 := by omega
        rw [hql] at hT
        simp only [buildLoopF, hq, hq1] at hT
        set m : QElem := (x.1 + y.1, HuffNode.Parent x.2 y.2) with hm_def
        set q' : List QElem := q2 ++ [m] with hqp_def
        have hm1 : m.1 = x.1 + y.1 := by rw [hm_def]
        have hm2 : m.2 = HuffNode.Parent x.2 y.2 := by rw [hm_def]
        have hqp_len : q'.length = q2.length + 1 := by rw [hqp_def]; simp
        have hT' : buildLoopF q'.length q' = some T := by rw [hqp_len]; exact hT
        obtain ⟨l, r, hsp1, hsp2, hlstrict, _⟩ := popMin_split hq
        obtain ⟨l', r', hsp1', hsp2', hlstrict', _⟩ := popMin_split hq1
        have hq1_mem : ∀ e, e ∈ q1 → e ∈ q := by
          intro e he
          rw [hsp1]
          rw [hsp2] at he
          rcases List.mem_append.mp he with h | h
          · exact List.mem_append.mpr (Or.inl h)
          · exact List.mem_append.mpr (Or.inr (List.mem_cons_of_mem x h))
        have hq2_mem1 : ∀ e, e ∈ q2 → e ∈ q1 := by
          intro e he
          rw [hsp1']
          rw [hsp2'] at he
          rcases List.mem_append.mp he with h | h
          · exact List.mem_append.mpr (Or.inl h)
          · exact List.mem_append.mpr (Or.inr (List.mem_cons_of_mem y h))
        have hq2_mem : ∀ e, e ∈ q2 → e ∈ q := fun e he => hq1_mem e (hq2_mem1 e he)
        have hx_mem : x ∈ q := popMin_mem hq
        have hy_mem1 : y ∈ q1 := popMin_mem hq1
        have hy_mem : y ∈ q := hq1_mem y hy_mem1
        have hx_pos : 0 < x.1 := hpos x hx_mem
        have hy_pos : 0 < y.1 := hpos y hy_mem
        have hx_le : ∀ e ∈ q1, x.1 ≤ e.1 := popMin_le hq
        have hy_le : ∀ e ∈ q2, y.1 ≤ e.1 := popMin_le hq1
        have hxy : x.1 ≤ y.1 := hx_le y hy_mem1
        have hqperm : q.Perm (x :: y :: q2) :=
          (popMin_perm hq).trans ((popMin_perm hq1).cons x)
        have hsymsq : ((q.map (fun e => leaves e.2)).flatten).Perm
            (leaves x.2 ++ (leaves y.2 ++ (q2.map (fun e => leaves e.2)).flatten)) := by
          have := (hqperm.map (fun e => leaves e.2)).flatten
          simpa using this
        have hN' : ((q'.map (fun e => leaves e.2)).flatten).Nodup := by
          have hq'syms : ((q'.map (fun e => leaves e.2)).flatten)
              = ((q2.map (fun e => leaves e.2)).flatten)
                ++ (leaves x.2 ++ leaves y.2) := by
            rw [hqp_def]
            simp [hm_def, leaves]
          rw [hq'syms]
          have hp2 : ((q.map (fun e => leaves e.2)).flatten).Perm
              (((q2.map (fun e => leaves e.2)).flatten)
                ++ (leaves x.2 ++ leaves y.2)) := by
            refine hsymsq.trans ?_
            rw [← List.append_assoc]
            exact List.perm_append_comm
          exact hp2.nodup hN
        have hpos' : ∀ e ∈ q', 0 < e.1 := by
          intro e he
          rw [hqp_def] at he
          rcases List.mem_append.mp he with h | h
          · exact hpos e (hq2_mem e h)
          · rw [List.mem_singleton] at h
            subst h
            omega
        obtain ⟨hOcc', hPW', hC2'⟩ := ih q' T (by rw [hqp_len]; omega) hT' hpos' hN'
        have hPWsplit := List.pairwise_append.mp (hqp_def ▸ hPW')
        have hPW2 : List.Pairwise (DepthRel T) q2 := hPWsplit.1
        have hq2m : ∀ a ∈ q2, DepthRel T a m := by
          intro a ha
          exact hPWsplit.2.2 a ha m (List.mem_singleton_self m)
        have hm_mem' : m ∈ q' := by
          rw [hqp_def]
          exact List.mem_append.mpr (Or.inr (List.mem_singleton_self m))
        have hq2_mem' : ∀ e ∈ q2, e ∈ q' := by
          intro e he
          rw [hqp_def]
          exact List.mem_append.mpr (Or.inl he)
        obtain ⟨pm, hpm⟩ := hOcc' m hm_mem'
        have hpmP : occursAt T pm (HuffNode.Parent x.2 y.2) := by
          rw [← hm2]
          exact hpm
        have hocc_x : occursAt T (pm ++ [false]) x.2 :=
          (occursAt_children pm T x.2 y.2 hpmP).1
        have hocc_y : occursAt T (pm ++ [true]) y.2 :=
          (occursAt_children pm T x.2 y.2 hpmP).2
        have hTperm := buildLoopF_leaves_perm q'.length q' T hT'
        have hTN : (leaves T).Nodup := hTperm.symm.nodup hN'
        have hux : ∀ px, occursAt T px x.2 → px = pm ++ [false] :=
          fun px h => occursAt_unique T hTN x.2 px (pm ++ [false]) h hocc_x
        have huy : ∀ py, occursAt T py y.2 → py = pm ++ [true] :=
          fun py h => occursAt_unique T hTN y.2 py (pm ++ [true]) h hocc_y
        have hlen_x : ∀ px, occursAt T px x.2 → px.length = pm.length + 1 := by
          intro px h
          rw [hux px h]
          simp
        have hlen_y : ∀ py, occursAt T py y.2 → py.length = pm.length + 1 := by
          intro py h
          rw [huy py h]
          simp
        have hm_premise : ∀ e ∈ q', m.1 ≤ 2 * e.1 := by
          intro e he
          rw [hqp_def] at he
          rcases List.mem_append.mp he with h | h
          · have := hy_le e h
            omega
          · rw [List.mem_singleton] at h
            subst h
            omega
        have hC2m : ∀ u ∈ q', ∀ pu, occursAt T pu u.2 →
            pu.length ≤ pm.length + 1 := by
          intro u hu pu hpu
          exact hC2' m hm_mem' hm_premise u hu pu pm hpu hpm
        have hdeep : ∀ a ∈ q2, a.1 < m.1 → ∀ pa, occursAt T pa a.2 →
            pm.length ≤ pa.length := by
          intro a ha hlt pa hpa
          exact ((hq2m a ha) pa pm hpa hpm).2.1 hlt
        have hdeep_eq : ∀ a ∈ q2, a.1 = m.1 → ∀ pa, occursAt T pa a.2 →
            pm.length ≤ pa.length := by
          intro a ha heq pa hpa
          exact (((hq2m a ha) pa pm hpa hpm).2.2 heq).1
        have hx_not_q1 : x ∉ q1 := by
          intro hc
          rw [hsp2] at hc
          rcases List.mem_append.mp hc with h | h
          · refine not_pair_self_of_nodup (u := x) hN ?_
            rw [hsp1]
            exact pair_sublist_of_mem h (List.mem_cons_self x r)
          · refine not_pair_self_of_nodup (u := x) hN ?_
            rw [hsp1, show l ++ x :: r = (l ++ [x]) ++ r by simp]
            exact pair_sublist_of_mem
              (List.mem_append.mpr (Or.inr (List.mem_singleton_self x))) h
        have hq1_sub : q1.Sublist q := by
          rw [hsp1, hsp2]
          exact (List.Sublist.refl l).append (List.sublist_cons_self x r)
        have hN1 : ((q1.map (fun e => leaves e.2)).flatten).Nodup :=
          List.Nodup.sublist (syms_sublist hq1_sub) hN
        have hy_not_q2 : y ∉ q2 := by
          intro hc
          rw [hsp2'] at hc
          rcases List.mem_append.mp hc with h | h
          · refine not_pair_self_of_nodup (u := y) hN1 ?_
            rw [hsp1']
            exact pair_sublist_of_mem h (List.mem_cons_self y r')
          · refine not_pair_self_of_nodup (u := y) hN1 ?_
            rw [hsp1', show l' ++ y :: r' = (l' ++ [y]) ++ r' by simp]
            exact pair_sublist_of_mem
              (List.mem_append.mpr (Or.inr (List.mem_singleton_self y))) h
        have hxy_ne : x ≠ y := fun hc => hx_not_q1 (hc ▸ hy_mem1)
        have hxq2_ne : ∀ a ∈ q2, a ≠ x :=
          fun a ha hc => hx_not_q1 (hc ▸ hq2_mem1 a ha)
        have hyq2_ne : ∀ a ∈ q2, a ≠ y := fun a ha hc => hy_not_q2 (hc ▸ ha)
        have hx_nl : x ∉ l := by
          intro hc
          apply hx_not_q1
          rw [hsp2]
          exact List.mem_append.mpr (Or.inl hc)
        have hx_nr : x ∉ r := by
          intro hc
          apply hx_not_q1
          rw [hsp2]
          exact List.mem_append.mpr (Or.inr hc)
        have hy_nl' : y ∉ l' := by
          intro hc
          apply hy_not_q2
          rw [hsp2']
          exact List.mem_append.mpr (Or.inl hc)
        have hy_nr' : y ∉ r' := by
          intro hc
          apply hy_not_q2
          rw [hsp2']
          exact List.mem_append.mpr (Or.inr hc)
        have hq1_class : ∀ e ∈ q1, e = y ∨ e ∈ q2 := by
          intro e he1
          rw [hsp1'] at he1
          rcases List.mem_append.mp he1 with h1 | h1
          · refine Or.inr ?_
            rw [hsp2']
            exact List.mem_append.mpr (Or.inl h1)
          · rcases List.mem_cons.mp h1 with h2 | h2
            · exact Or.inl h2
            · refine Or.inr ?_
              rw [hsp2']
              exact List.mem_append.mpr (Or.inr h2)
        have hq_class : ∀ e ∈ q, e = x ∨ e = y ∨ e ∈ q2 := by
          intro e he
          rw [hsp1] at he
          rcases List.mem_append.mp he with h | h
          · refine Or.inr (hq1_class e ?_)
            rw [hsp2]
            exact List.mem_append.mpr (Or.inl h)
          · rcases List.mem_cons.mp h with h2 | h2
            · exact Or.inl h2
            · refine Or.inr (hq1_class e ?_)
              rw [hsp2]
              exact List.mem_append.mpr (Or.inr h2)
        refine ⟨?_, ?_, ?_⟩
        · intro e he
          rcases hq_class e he with rfl | rfl | h2
          · exact ⟨pm ++ [false], hocc_x⟩
          · exact ⟨pm ++ [true], hocc_y⟩
          · exact hOcc' e (hq2_mem' e h2)
        · rw [List.pairwise_iff_forall_sublist]
          intro a b hab
          have ha : a ∈ q := hab.subset (by simp)
          have hb : b ∈ q := hab.subset (by simp)
          rcases hq_class a ha with rfl | rfl | ha2
          · rcases hq_class b hb with rfl | rfl | hb2
            · exact (not_pair_self_of_nodup hN hab).elim
            · intro pu pv hpu hpv
              have h1 := hlen_x pu hpu
              have h2 := hlen_y pv hpv
              exact ⟨fun _ => by omega, fun _ => by omega,
                fun _ => ⟨by omega, by omega⟩⟩
            · intro pu pv hpu hpv
              have hpul := hlen_x pu hpu
              have hble := hx_le b (hq2_mem1 b hb2)
              have hbound := hC2m b (hq2_mem' b hb2) pv hpv
              refine ⟨fun hlt => by omega, fun _ => by omega, fun heq => ?_⟩
              have hdp : pm.length ≤ pv.length :=
                hdeep b hb2 (by omega) pv hpv
              exact ⟨by omega, by omega⟩
          · rcases hq_class b hb with rfl | rfl | hb2
            · intro pu pv hpu hpv
              have h1 := hlen_y pu hpu
              have h2 := hlen_x pv hpv
              exact ⟨fun _ => by omega, fun _ => by omega,
                fun _ => ⟨by omega, by omega⟩⟩
            · exact (not_pair_self_of_nodup hN hab).elim
            · intro pu pv hpu hpv
              have hpul := hlen_y pu hpu
              have hble := hy_le b hb2
              have hbound := hC2m b (hq2_mem' b hb2) pv hpv
              refine ⟨fun hlt => by omega, fun _ => by omega, fun heq => ?_⟩
              have hdp : pm.length ≤ pv.length :=
                hdeep b hb2 (by omega) pv hpv
              exact ⟨by omega, by omega⟩
          · rcases hq_class b hb with rfl | rfl | hb2
            · intro pu pv hpu hpv
              have hpvl := hlen_x pv hpv
              have hale := hx_le a (hq2_mem1 a ha2)
              have hbound := hC2m a (hq2_mem' a ha2) pu hpu
              refine ⟨fun _ => by omega, fun hlt => by omega, fun heq => ?_⟩
              exfalso
              have hax := hxq2_ne a ha2
              have hainl : a ∈ l :=
                mem_left_of_pair_sublist l r (hsp1 ▸ hab) hax hx_nl hx_nr
              have := hlstrict a hainl
              omega
            · intro pu pv hpu hpv
              have hpvl := hlen_y pv hpv
              have hale := hy_le a ha2
              have hbound := hC2m a (hq2_mem' a ha2) pu hpu
              refine ⟨fun _ => by omega, fun hlt => by omega, fun heq => ?_⟩
              exfalso
              have hay := hyq2_ne a ha2
              have hsub1 : [a, b].Sublist q1 := by
                rw [hsp2]
                refine sublist_remove_mid l r (hsp1 ▸ hab) ?_
                intro hc
                rcases List.mem_cons.mp hc with h | h
                · exact (hxq2_ne a ha2) h.symm
                · rw [List.mem_singleton] at h
                  exact hxy_ne h
              have hainl' : a ∈ l' :=
                mem_left_of_pair_sublist l' r' (hsp1' ▸ hsub1) hay hy_nl' hy_nr'
              have := hlstrict' a hainl'
              omega
            · have hax := hxq2_ne a ha2
              have hbx := hxq2_ne b hb2
              have hay := hyq2_ne a ha2
              have hby := hyq2_ne b hb2
              have hsub1 : [a, b].Sublist q1 := by
                rw [hsp2]
                refine sublist_remove_mid l r (hsp1 ▸ hab) ?_
                intro hc
                rcases List.mem_cons.mp hc with h | h
                · exact hax h.symm
                · rw [List.mem_singleton] at h
                  exact hbx h.symm
              have hsub2 : [a, b].Sublist q2 := by
                rw [hsp2']
                refine sublist_remove_mid l' r' (hsp1' ▸ hsub1) ?_
                intro hc
                rcases List.mem_cons.mp hc with h | h
                · exact hay h.symm
                · rw [List.mem_singleton] at h
                  exact hby h.symm
              have hsub' : [a, b].Sublist q' := by
                rw [hqp_def]
                exact hsub2.trans (List.sublist_append_left _ _)
              exact List.pairwise_iff_forall_sublist.mp hPW' hsub'
        · intro v hv hprem u hu pu pv hpu hpv
          have hvx := hprem x hx_mem
          rcases hq_class v hv with rfl | rfl | hv2
          · have hpvl := hlen_x pv hpv
            rcases hq_class u hu with rfl | rfl | hu2
            · have := hlen_x pu hpu
              omega
            · have := hlen_y pu hpu
              omega
            · have := hC2m u (hq2_mem' u hu2) pu hpu
              omega
          · have hpvl := hlen_y pv hpv
            rcases hq_class u hu with rfl | rfl | hu2
            · have := hlen_x pu hpu
              omega
            · have := hlen_y pu hpu
              omega
            · have := hC2m u (hq2_mem' u hu2) pu hpu
              omega
          · have hvm : v.1 ≤ m.1 := by omega
            rcases hq_class u hu with rfl | rfl | hu2
            · have hpul := hlen_x pu hpu
              rcases lt_or_eq_of_le hvm with hlt | heq
              · have := hdeep v hv2 hlt pv hpv
                omega
              · have := hdeep_eq v hv2 heq pv hpv
                omega
            · have hpul := hlen_y pu hpu
              rcases lt_or_eq_of_le hvm with hlt | heq
              · have := hdeep v hv2 hlt pv hpv
                omega
              · have := hdeep_eq v hv2 heq pv hpv
                omega
            · have hprem' : ∀ e ∈ q', v.1 ≤ 2 * e.1 := by
                intro e he
                rw [hqp_def] at he
                rcases List.mem_append.mp he with h | h
                · exact hprem e (hq2_mem e h)
                · rw [List.mem_singleton] at h
                  subst h
                  omega
              exact hC2' v (hq2_mem' v hv2) hprem' u (hq2_mem' u hu2)
                pu pv hpu hpv

theorem syms_initQueue (counts : SymbolCounts) :
    (((initQueue counts).map (fun e => leaves e.2)).flatten)
      = supportList counts := by
  rw [initQueue_eq, List.map_map]
  rw [show ((fun e : QElem => leaves e.2) ∘ fun s => (counts s, HuffNode.Leaf s))
      = (fun s : Nat => [s]) from rfl]
  exact flatten_map_singleton _

/-- C6: in the code table derived from the tree built from the counts, a
symbol with strictly higher count receives a code no longer than a symbol
with strictly lower (nonzero) count. -/
theorem higher_count_shorter_code {counts : SymbolCounts} {T : HuffNode}
    {table : Nat → List Bool}
    (hbt : build_tree counts = some T) (hct : codes_from_tree T = some table)
    {a b : Nat} (ha : a < 256) (hb : b < 256)
    (hbpos : 0 < counts b) (hgt : counts b < counts a) :
    (table a).length ≤ (table b).length := by
  have hoa : occursAt T (table a) (HuffNode.Leaf a) :=
    table_occursAt hbt hct ha (lt_trans hbpos hgt)
  have hob : occursAt T (table b) (HuffNode.Leaf b) :=
    table_occursAt hbt hct hb hbpos
  rw [build_tree] at hbt
  by_cases hlen : 1 < (initQueue counts).length
  · rw [if_pos hlen] at hbt
    rw [buildLoop] at hbt
    have hposq : ∀ e ∈ initQueue counts, 0 < e.1 := by
      intro e he
      rw [initQueue_eq] at he
      obtain ⟨s, hs, hes⟩ := List.mem_map.mp he
      rw [← hes]
      exact (mem_supportList.mp hs).2
    have hNq : (((initQueue counts).map (fun e => leaves e.2)).flatten).Nodup := by
      rw [syms_initQueue]
      exact supportList_nodup counts
    obtain ⟨_, hPW, _⟩ := buildLoop_invariant (initQueue counts).length
      (initQueue counts) T le_rfl hbt hposq hNq
    have hamem : a ∈ supportList counts :=
      mem_supportList.mpr ⟨ha, lt_trans hbpos hgt⟩
    have hbmem : b ∈ supportList counts := mem_supportList.mpr ⟨hb, hbpos⟩
    have hane : a ≠ b := by
      intro hc
      rw [hc] at hgt
      omega
    rcases pair_sublist_of_mem_ne (supportList counts) hamem hbmem hane
      with hsub | hsub
    · have hsubq := hsub.map (fun s => (counts s, HuffNode.Leaf s))
      rw [← initQueue_eq] at hsubq
      have hrel := List.pairwise_iff_forall_sublist.mp hPW hsubq
      exact (hrel (table a) (table b) hoa hob).1 hgt
    · have hsubq := hsub.map (fun s => (counts s, HuffNode.Leaf s))
      rw [← initQueue_eq] at hsubq
      have hrel := List.pairwise_iff_forall_sublist.mp hPW hsubq
      exact (hrel (table b) (table a) hob hoa).2.1 hgt
  · rw [if_neg hlen] at hbt
    simp at hbt

/-- C6 witness: for counts of `[0,0,0,1]`, byte 0 (count 3) gets a code no
longer than byte 1 (count 1). -/
theorem higher_count_shorter_code_witness :
    (tableOf (codes_from_tree_impl
        (HuffNode.Parent (HuffNode.Leaf 1) (HuffNode.Leaf 0)) []) 0).length
      ≤ (tableOf (codes_from_tree_impl
        (HuffNode.Parent (HuffNode.Leaf 1) (HuffNode.Leaf 0)) []) 1).length := by
  have hbt : build_tree (count_symbols [0, 0, 0, 1])
      = some (HuffNode.Parent (HuffNode.Leaf 1) (HuffNode.Leaf 0)) := by decide
  exact higher_count_shorter_code hbt rfl (by decide) (by decide) (by decide)
    (by decide)

end Huff
